import Mathlib

set_option maxRecDepth 40000

/-!
Shallow embedding of the core of the `fk.todo` task manager
(`todo-tool/src-tauri/src`): the recurrence calculator (`repeat.rs`), the
reminder scheduler (`scheduler.rs`), the task state store (`state.rs`) and the
auto-backup policy (`commands.rs`).

Conventions of the embedding:
* Rust `i64` timestamps become `Int`; `u8`/`u32` become `Nat`.  Overflow is
  modelled explicitly where the source uses saturating arithmetic.
* `chrono`'s `NaiveDate` is modelled as a civil (proleptic Gregorian) calendar
  date triple, with day arithmetic, weekday and month lengths defined from the
  civil calendar (which is exactly what `chrono` implements).
* The ambient timezone (`chrono::Local`) is modelled as a fixed UTC offset
  `off`; with a fixed offset every local datetime is unambiguous, so the DST
  `LocalResult::Ambiguous/None` branches of `repeat.rs` are never taken.
* The unbounded `loop`s of `repeat.rs` are modelled by a first-hit search with
  explicit fuel, together with lemmas showing when the search succeeds and a
  divergence lemma showing that no amount of fuel helps when the loop guard is
  never satisfiable.
-/

namespace FkTodo

/-! ## Civil calendar model (semantics of `chrono::NaiveDate`) -/

/-- A civil (proleptic Gregorian) calendar date, the model of `chrono::NaiveDate`. -/
structure Date where
  year : Int
  month : Nat
  day : Nat
deriving DecidableEq, Repr

/-- Gregorian leap-year rule (as implemented by `chrono`). -/
def isLeapYear (y : Int) : Bool :=
  (y % 4 == 0 && y % 100 != 0) || y % 400 == 0

/-- Length of a civil month.  Out-of-range months (never produced by a valid
date) default to 31. -/
def monthLen (y : Int) (m : Nat) : Nat :=
  if m = 2 then (if isLeapYear y then 29 else 28)
  else if m = 4 ∨ m = 6 ∨ m = 9 ∨ m = 11 then 30
  else 31

/-- The dates representable by `chrono::NaiveDate`: month and day in range. -/
def Date.Valid (d : Date) : Prop :=
  1 ≤ d.month ∧ d.month ≤ 12 ∧ 1 ≤ d.day ∧ d.day ≤ monthLen d.year d.month

instance (d : Date) : Decidable d.Valid := by
  unfold Date.Valid; infer_instance

/-- Number of Gregorian leap years in `[1, n]` (for `n ≥ 0`; continued by the
same floor formula below zero). -/
def leapCount (n : Int) : Int := n / 4 - n / 100 + n / 400

/-- Days in years `[0, y)` of the proleptic Gregorian calendar. -/
def daysBeforeYear (y : Int) : Int := 365 * y + leapCount (y - 1)

/-- Days in the months `[1, m)` of year `y`. -/
def daysBeforeMonth (y : Int) : Nat → Int
  | 0 => 0
  | 1 => 0
  | m + 1 => daysBeforeMonth y m + monthLen y m

/-- Days since the Unix epoch 1970-01-01 (the linear count `chrono` uses for
day arithmetic and weekday computation). -/
def Date.dayNumber (d : Date) : Int :=
  daysBeforeYear d.year + daysBeforeMonth d.year d.month + d.day - 719528

/-- The calendar successor of a date. -/
def succDate (d : Date) : Date :=
  if d.day < monthLen d.year d.month then ⟨d.year, d.month, d.day + 1⟩
  else if d.month < 12 then ⟨d.year, d.month + 1, 1⟩
  else ⟨d.year + 1, 1, 1⟩

/-- The calendar predecessor of a date. -/
def predDate (d : Date) : Date :=
  if 1 < d.day then ⟨d.year, d.month, d.day - 1⟩
  else if 1 < d.month then ⟨d.year, d.month - 1, monthLen d.year (d.month - 1)⟩
  else ⟨d.year - 1, 12, 31⟩

/-- Model of `date + Duration::days(n)` for `n ≥ 0` (the only direction `repeat.rs`
adds). -/
def addDays (d : Date) (n : Nat) : Date := succDate^[n] d

/-- Model of `chrono`'s `weekday().number_from_monday()`: Monday = 1 .. Sunday = 7.
1970-01-01 (day number 0) is a Thursday. -/
def weekdayOf (d : Date) : Nat := ((d.dayNumber + 3) % 7).toNat + 1

/-- Model of `NaiveDate::from_ymd_opt`. -/
def fromYmdOpt (y : Int) (m : Nat) (day : Nat) : Option Date :=
  if (⟨y, m, day⟩ : Date).Valid then some ⟨y, m, day⟩ else none

/-! ## Recovering a date from a day number

`chrono` converts a timestamp to a `NaiveDate` through the civil calendar.  We
model that conversion by locating the day inside its 400-year Gregorian cycle
(years `[400q, 400(q+1))`) and then scanning the years of the cycle and the
months of the found year.  Only totality and validity of the result matter for
the theorems below; the scan makes both immediate. -/

/-- Scan blocks `(label, length)`, returning the block containing offset `r`
together with the offset within that block. -/
def splitScan {α : Type} : Int → List (α × Int) → Option (α × Int)
  | _, [] => none
  | r, (a, len) :: rest => if r < len then some (a, r) else splitScan (r - len) rest

/-- Length of year `y` in days. -/
def yearLen (y : Int) : Int := 365 + (if isLeapYear y then 1 else 0)

/-- The 400 years of the Gregorian cycle starting at year `400q`. -/
def yearBlocks (q : Int) : List (Int × Int) :=
  (List.range 400).map fun i => (400 * q + i, yearLen (400 * q + i))

/-- The 12 months of year `y`. -/
def monthBlocks (y : Int) : List (Nat × Int) :=
  (List.range 12).map fun i => (i + 1, (monthLen y (i + 1) : Int))

/-- Inverse of `Date.dayNumber`: the civil date of a day number (model of
`chrono`'s timestamp → `NaiveDate` conversion).  The fallback arms are
unreachable (see `dateFromDayNumber_valid`). -/
def dateFromDayNumber (z : Int) : Date :=
  match splitScan ((z + 719528) % 146097) (yearBlocks ((z + 719528) / 146097)) with
  | some (y, doy) =>
    match splitScan doy (monthBlocks y) with
    | some (m, dom) => ⟨y, m, (dom + 1).toNat⟩
    | none => ⟨y, 1, 1⟩
  | none => ⟨1970, 1, 1⟩

/-! ## `models.rs`: `RepeatRule` -/

/-- Model of `models.rs` `RepeatRule` (closed tagged variant).  `days`, `day`, `month`
are Rust `u8` values, modelled as `Nat`. -/
inductive RepeatRule where
  | none
  | daily (workday_only : Bool)
  | weekly (days : List Nat)
  | monthly (day : Nat)
  | yearly (month : Nat) (day : Nat)
deriving DecidableEq, Repr

/-! ## `repeat.rs`: the recurrence calculator

The unbounded `loop`s in `next_workday` / `next_weekday` are modelled by
`firstHit`, a fuelled search for the first offset whose guard holds.  Fuel 7 is
enough whenever the loop terminates at all (the weekday cycles with period 7);
`firstHit_eq_none_of_never` shows that when the guard is unsatisfiable the
search fails for EVERY fuel, i.e. the source loop never exits. -/

/-- First `k' ≥ k` (within `fuel` steps) with `p k' = true`. -/
def firstHit (p : Nat → Bool) : Nat → Nat → Option Nat
  | _, 0 => none
  | k, fuel + 1 => if p k then some k else firstHit p (k + 1) fuel

/-- Model of `repeat.rs` `next_workday`: advance one day; if `workday_only`, keep
advancing while the result is a Saturday (6) or Sunday (7). -/
def nextWorkday (date : Date) (workday_only : Bool) : Option Date :=
  if workday_only then
    (firstHit (fun k => !(weekdayOf (addDays date k) == 6 || weekdayOf (addDays date k) == 7))
        1 7).map (addDays date)
  else some (addDays date 1)

/-- Model of `repeat.rs` `next_weekday`: earliest date strictly after `date` whose
weekday number is in `days`; `date + 7` when `days` is empty.  When `days` is
non-empty the source enters an unbounded search, modelled by `firstHit`. -/
def nextWeekday (date : Date) (days : List Nat) : Option Date :=
  if days.isEmpty then some (addDays date 7)
  else (firstHit (fun k => days.contains (weekdayOf (addDays date k))) 1 7).map (addDays date)

/-- Model of `repeat.rs` `last_day_of_month`: first day of the next month, minus one
day.  The source's `.unwrap()` never fails (month' ∈ [1,12], day 1 is valid);
modelled by `Option.getD`. -/
def lastDayOfMonth (year : Int) (month : Nat) : Nat :=
  let next_month := if month = 12 then 1 else month + 1
  let next_year := if month = 12 then year + 1 else year
  let first_next := (fromYmdOpt next_year next_month 1).getD ⟨1970, 1, 1⟩
  (predDate first_next).day

/-- Model of `repeat.rs` `next_month_day`: advance to the next month (rolling the year
from December), clamp the target day to `[1, last_day_of_month]`. -/
def nextMonthDay (date : Date) (day : Nat) : Date :=
  let month' := date.month + 1
  let year := if month' > 12 then date.year + 1 else date.year
  let month := if month' > 12 then 1 else month'
  let last_day := lastDayOfMonth year month
  let safe_day := max 1 day
  let use_day := min safe_day last_day
  (fromYmdOpt year month use_day).getD date

/-- Model of `repeat.rs` `next_year_day`: advance to the next year, clamp the month to
`[1, 12]` and the day to `[1, last_day_of_month]`. -/
def nextYearDay (date : Date) (month day : Nat) : Date :=
  let year := date.year + 1
  let m := min (max month 1) 12
  let last_day := lastDayOfMonth year m
  let safe_day := max 1 day
  let use_day := min safe_day last_day
  (fromYmdOpt year m use_day).getD date

/-- The date-level dispatch of `next_due_timestamp` (the `match repeat` block
of `repeat.rs`).  `none` signals that the source's search loop never returns
(see `firstHit_eq_none_of_never`). -/
def nextDate (rule : RepeatRule) (base : Date) : Option Date :=
  match rule with
  | RepeatRule.none => some base
  | RepeatRule.daily workday_only => nextWorkday base workday_only
  | RepeatRule.weekly days => nextWeekday base days
  | RepeatRule.monthly day => some (nextMonthDay base day)
  | RepeatRule.yearly month day => some (nextYearDay base month day)

/-- Seconds per civil day. -/
def secondsPerDay : Int := 86400

/-- Model of `chrono`'s representable timestamp range (years −262144..262143);
`timestamp_opt(ts, 0).single()` is `None` outside it.  The exact bounds do not
matter to any theorem below, only the fallback structure does. -/
def representableTs (ts : Int) : Prop :=
  (Date.dayNumber ⟨-262144, 1, 1⟩) * secondsPerDay ≤ ts ∧
    ts ≤ (Date.dayNumber ⟨262143, 12, 31⟩) * secondsPerDay + (secondsPerDay - 1)

instance (ts : Int) : Decidable (representableTs ts) := by
  unfold representableTs; infer_instance

/-- Model of `repeat.rs` `next_due_timestamp` (generic over the timezone, here a fixed
UTC offset `off`): interpret `due_at` as a local date + time-of-day (falling
back to `now` when `due_at` is unrepresentable), advance the date by the rule,
re-attach the time-of-day.  With a fixed offset the local datetime is always
`LocalResult::Single`, so the DST branches of the source are not taken. -/
def nextDueTimestamp (off : Int) (now : Int) (due_at : Int) (rule : RepeatRule) : Option Int :=
  let base := if representableTs due_at then due_at else now
  let z := (base + off) / secondsPerDay
  let time := (base + off) % secondsPerDay
  let base_date := dateFromDayNumber z
  (nextDate rule base_date).map fun d => d.dayNumber * secondsPerDay + time - off

/-- The `Weekly` termination condition: the set is empty (source returns
`date + 7` directly) or contains at least one genuine weekday number. -/
def weeklyTerminates : RepeatRule → Prop
  | RepeatRule.weekly days => days = [] ∨ ∃ d ∈ days, 1 ≤ d ∧ d ≤ 7
  | _ => True

instance (rule : RepeatRule) : Decidable (weeklyTerminates rule) := by
  unfold weeklyTerminates
  match rule with
  | RepeatRule.none | RepeatRule.daily _ | RepeatRule.monthly _
  | RepeatRule.yearly _ _ => exact inferInstanceAs (Decidable True)
  | RepeatRule.weekly days => infer_instance

/-! ## `models.rs`: the data model

Rust `i64` fields are `Int`; the claims never depend on wrap-around, and the
source uses saturating arithmetic where overflow is possible, modelled by
`saturatingAddI64`. -/

/-- Model of `models.rs` `ReminderKind`. -/
inductive ReminderKind where
  | none
  | normal
  | forced
deriving DecidableEq, Repr

/-- Model of `models.rs` `ReminderConfig`. -/
structure ReminderConfig where
  kind : ReminderKind
  remind_at : Option Int
  snoozed_until : Option Int
  forced_dismissed : Bool
  last_fired_at : Option Int
  repeat_fired_count : Int
deriving DecidableEq, Repr

/-- Model of `ReminderConfig::default()`. -/
def ReminderConfig.default : ReminderConfig :=
  { kind := ReminderKind.none, remind_at := none, snoozed_until := none,
    forced_dismissed := false, last_fired_at := none, repeat_fired_count := 0 }

/-- Model of `models.rs` `Step`. -/
structure Step where
  id : String
  title : String
  completed : Bool
  created_at : Int
  completed_at : Option Int
deriving DecidableEq, Repr

/-- Model of `models.rs` `Task` (`repeat` is named `repeatRule`; `repeat` is reserved in
Lean). -/
structure Task where
  id : String
  project_id : String
  title : String
  due_at : Int
  important : Bool
  completed : Bool
  completed_at : Option Int
  created_at : Int
  updated_at : Int
  sort_order : Int
  quadrant : Nat
  notes : Option String
  steps : List Step
  tags : List String
  sample_tag : Option String
  reminder : ReminderConfig
  repeatRule : RepeatRule
deriving DecidableEq, Repr

/-- Model of `models.rs` `Project`. -/
structure Project where
  id : String
  name : String
  pinned : Bool
  sort_order : Int
  created_at : Int
  updated_at : Int
  sample_tag : Option String
deriving DecidableEq, Repr

/-- Model of `models.rs` `BackupSchedule`. -/
inductive BackupSchedule where
  | none
  | daily
  | weekly
  | monthly
deriving DecidableEq, Repr

/-- Model of `models.rs` `Settings`, restricted to the fields the modelled operations
read or write (`backup_schedule`, `last_backup_at`,
`reminder_repeat_interval_sec`, `reminder_repeat_max_times`).  The remaining
fields are UI configuration never consulted by the scheduler, the state store
or the auto-backup policy. -/
structure Settings where
  backup_schedule : BackupSchedule
  last_backup_at : Option Int
  reminder_repeat_interval_sec : Int
  reminder_repeat_max_times : Int
deriving DecidableEq, Repr

/-- Model of `Settings::default()` (the modelled fields): `backup_schedule = Daily`,
`last_backup_at = None`, `reminder_repeat_interval_sec = 600`,
`reminder_repeat_max_times = 0`. -/
def Settings.default : Settings :=
  { backup_schedule := BackupSchedule.daily, last_backup_at := none,
    reminder_repeat_interval_sec := 10 * 60, reminder_repeat_max_times := 0 }

/-- Model of `i64::MIN`. -/
def i64Min : Int := -9223372036854775808

/-- Model of `i64::MAX`. -/
def i64Max : Int := 9223372036854775807

/-- Rust `i64::saturating_add`. -/
def saturatingAddI64 (a b : Int) : Int := min (max (a + b) i64Min) i64Max

/-! ## `scheduler.rs`: `collect_due_tasks`

The source reads one snapshot of the store's tasks and settings; the model
takes them as arguments (the spec's contract signature). -/

/-- The `default_target` binding of `collect_due_tasks`: `due_at - 600` for a
Normal reminder, `due_at` for a Forced one. -/
def defaultTarget (kind : ReminderKind) (due_at : Int) : Int :=
  if kind == ReminderKind.normal then due_at - 10 * 60 else due_at

/-- The `target_time` binding of `collect_due_tasks`:
`snoozed_until.or(remind_at).unwrap_or(default_target)`. -/
def targetTime (r : ReminderConfig) (due_at : Int) : Int :=
  (r.snoozed_until.or r.remind_at).getD (defaultTarget r.kind due_at)

/-- The `next_target` computation of the repeating path of
`collect_due_tasks` (absent `last_fired_at` is `i64::MIN` for the snooze
comparison). -/
def repeatNextTarget (r : ReminderConfig) (target_time effective_repeat_interval : Int) : Int :=
  let last_fired_or_min := r.last_fired_at.getD i64Min
  match r.snoozed_until with
  | some snoozed_until =>
    if last_fired_or_min < snoozed_until then snoozed_until
    else
      match r.last_fired_at with
      | some last => saturatingAddI64 last effective_repeat_interval
      | none => target_time
  | none =>
    match r.last_fired_at with
    | some last => saturatingAddI64 last effective_repeat_interval
    | none => target_time

/-- The per-task due decision of `collect_due_tasks` (the body of its `for`
loop). -/
def taskDue (repeat_interval repeat_max_times now : Int) (task : Task) : Bool :=
  if task.completed then false
  else if task.reminder.kind == ReminderKind.none then false
  else if task.reminder.kind == ReminderKind.forced && task.reminder.forced_dismissed then false
  else
    let target_time := targetTime task.reminder task.due_at
    let effective_repeat_interval :=
      if task.reminder.kind == ReminderKind.normal then repeat_interval else 0
    if effective_repeat_interval ≤ 0 then
      let already_fired := task.reminder.last_fired_at.any fun last => decide (target_time ≤ last)
      !already_fired && decide (target_time ≤ now)
    else
      let fired_count := max task.reminder.repeat_fired_count 0
      if 0 < repeat_max_times ∧ repeat_max_times ≤ fired_count then false
      else decide (repeatNextTarget task.reminder target_time effective_repeat_interval ≤ now)

/-- The final `sort_by_key(|task| (!task.important, task.due_at))` order:
important tasks first, then ascending due date. -/
def dueSortLe (a b : Task) : Bool :=
  if a.important == b.important then decide (a.due_at ≤ b.due_at) else a.important

/-- Model of `scheduler.rs` `collect_due_tasks`. -/
def collectDueTasks (tasks : List Task) (settings : Settings) (now : Int) : List Task :=
  let repeat_interval := max settings.reminder_repeat_interval_sec 0
  let repeat_max_times := settings.reminder_repeat_max_times
  (tasks.filter (taskDue repeat_interval repeat_max_times now)).mergeSort dueSortLe

/-! ## `state.rs`: the task state store

`AppState` wraps `AppData` in a poison-recovering mutex; every operation is a
sequential transformation of the guarded data, which is what is modelled here.
`Utc::now()` is passed in explicitly wherever the source reads the clock. -/

/-- Model of `state.rs` `INBOX_PROJECT_ID`. -/
def inboxProjectId : String := "inbox"

/-- The pinned default project that `ensure_inbox_project` creates when the
inbox is missing. -/
def newInboxProject (now : Int) : Project :=
  { id := inboxProjectId
    name := "Inbox"
    pinned := true
    sort_order := 0
    created_at := now
    updated_at := now
    sample_tag := none }

/-- Model of `state.rs` `ensure_inbox_project`: append a pinned inbox project when no
project with id "inbox" exists. -/
def ensureInboxProject (projects : List Project) (now : Int) : List Project :=
  if projects.any fun p => p.id == inboxProjectId then projects
  else projects ++ [newInboxProject now]

/-- Model of `state.rs` `normalize_projects`: default a zero `sort_order` to
`created_at * 1000`. -/
def normalizeProjects (projects : List Project) : List Project :=
  projects.map fun p =>
    if p.sort_order = 0 then { p with sort_order := p.created_at * 1000 } else p

/-- The per-task body of `state.rs` `normalize_tasks`. -/
def normalizeTask (allowed : List String) (t : Task) : Task :=
  let t := if t.sort_order = 0 then { t with sort_order := t.created_at * 1000 } else t
  if t.project_id.trim.isEmpty || !(allowed.contains t.project_id) then
    { t with project_id := inboxProjectId }
  else t

/-- Model of `state.rs` `normalize_tasks`: default zero `sort_order`s and rewrite
blank/unknown `project_id`s to "inbox". -/
def normalizeTasks (tasks : List Task) (projects : List Project) : List Task :=
  tasks.map (normalizeTask (projects.map fun p => p.id))

/-- The data guarded by the store's mutex (`state.rs` `AppData`). -/
structure AppData where
  tasks : List Task
  projects : List Project
  settings : Settings
deriving DecidableEq, Repr

/-- Model of `AppState::new`. -/
def AppData.new (tasks : List Task) (projects : List Project) (settings : Settings)
    (now : Int) : AppData :=
  let projects' := normalizeProjects (ensureInboxProject projects now)
  { tasks := normalizeTasks tasks projects', projects := projects', settings := settings }

/-- Replace the first element satisfying `p` (the `iter_mut().find(..)`
update pattern of `state.rs`). -/
def updateFirst {α : Type} (p : α → Bool) (f : α → α) : List α → List α
  | [] => []
  | x :: rest => if p x then f x :: rest else x :: updateFirst p f rest

/-- Model of `AppState::add_task` (no normalization: the task is pushed as given). -/
def AppData.addTask (s : AppData) (task : Task) : AppData :=
  { s with tasks := s.tasks ++ [task] }

/-- Model of `AppState::add_project`. -/
def AppData.addProject (s : AppData) (project : Project) : AppData :=
  { s with projects := s.projects ++ [project] }

/-- Model of `AppState::replace_tasks`: normalize the incoming tasks against the current
projects. -/
def AppData.replaceTasks (s : AppData) (tasks : List Task) : AppData :=
  { s with tasks := normalizeTasks tasks s.projects }

/-- Model of `AppState::replace_projects`: ensure inbox, normalize, and re-normalize all
tasks against the new project list. -/
def AppData.replaceProjects (s : AppData) (projects : List Project) (now : Int) : AppData :=
  let next := normalizeProjects (ensureInboxProject projects now)
  { s with projects := next, tasks := normalizeTasks s.tasks next }

/-- Model of `AppState::update_task`: replace the first task with a matching id,
keeping the existing `sample_tag` when the incoming one is absent; no-op when
the id is unknown. -/
def AppData.updateTask (s : AppData) (task : Task) : AppData :=
  let upd := fun existing =>
    if task.sample_tag = none then { task with sample_tag := existing.sample_tag } else task
  { s with tasks := updateFirst (fun t => t.id == task.id) upd s.tasks }

/-- Model of `AppState::update_project`: replace the first project with a matching id;
no-op when the id is unknown. -/
def AppData.updateProject (s : AppData) (project : Project) : AppData :=
  { s with projects := updateFirst (fun p => p.id == project.id) (fun _ => project) s.projects }

/-- Model of `AppState::remove_project`: no-op for "inbox"; otherwise delete and
re-normalize all tasks. -/
def AppData.removeProject (s : AppData) (project_id : String) : AppData :=
  if project_id == inboxProjectId then s
  else
    let projects' := s.projects.filter fun p => !(p.id == project_id)
    { s with projects := projects', tasks := normalizeTasks s.tasks projects' }

/-- The index-finding loop of `swap_sort_order`: later matches overwrite
earlier ones until both indices are found (then the loop breaks); the second
id is only checked when the first did not match (`else if`). -/
def scanSwapIndices (first_id second_id : String) :
    Nat → List String → Option Nat × Option Nat → Option Nat × Option Nat
  | _, [], acc => acc
  | i, idv :: rest, (fi, si) =>
    let fi' := if idv == first_id then some i else fi
    let si' := if !(idv == first_id) && idv == second_id then some i else si
    if fi'.isSome && si'.isSome then (fi', si')
    else scanSwapIndices first_id second_id (i + 1) rest (fi', si')

/-- Exchange `sort_order` and stamp `updated_at` at two (distinct) task
indices. -/
def applySwapTasks (l : List Task) (i j : Nat) (updated_at : Int) : List Task :=
  match l[i]?, l[j]? with
  | some a, some b =>
    (l.set i { a with sort_order := b.sort_order, updated_at := updated_at }).set j
      { b with sort_order := a.sort_order, updated_at := updated_at }
  | _, _ => l

/-- Exchange `sort_order` and stamp `updated_at` at two (distinct) project
indices. -/
def applySwapProjects (l : List Project) (i j : Nat) (updated_at : Int) : List Project :=
  match l[i]?, l[j]? with
  | some a, some b =>
    (l.set i { a with sort_order := b.sort_order, updated_at := updated_at }).set j
      { b with sort_order := a.sort_order, updated_at := updated_at }
  | _, _ => l

/-- Model of `AppState::swap_sort_order`: `false` when either id is missing. -/
def AppData.swapSortOrder (s : AppData) (first_id second_id : String)
    (updated_at : Int) : Bool × AppData :=
  match scanSwapIndices first_id second_id 0 (s.tasks.map fun t => t.id) (none, none) with
  | (some i, some j) => (true, { s with tasks := applySwapTasks s.tasks i j updated_at })
  | _ => (false, s)

/-- Model of `AppState::swap_project_sort_order`. -/
def AppData.swapProjectSortOrder (s : AppData) (first_id second_id : String)
    (updated_at : Int) : Bool × AppData :=
  match scanSwapIndices first_id second_id 0 (s.projects.map fun p => p.id) (none, none) with
  | (some i, some j) => (true, { s with projects := applySwapProjects s.projects i j updated_at })
  | _ => (false, s)

/-- The timestamping applied by `complete_task` to the found task. -/
def finalizeTask (now : Int) (t : Task) : Task :=
  { t with
    completed := true
    completed_at := some now
    updated_at := now
    reminder := { t.reminder with snoozed_until := none, last_fired_at := some now } }

/-- The `iter_mut().find(..)` body of `complete_task` over the task list:
finalize the first task with the given id, returning a copy of it. -/
def completeTasksGo (now : Int) (task_id : String) : List Task → Option Task × List Task
  | [] => (none, [])
  | t :: rest =>
    if t.id == task_id then (some (finalizeTask now t), finalizeTask now t :: rest)
    else
      let r := completeTasksGo now task_id rest
      (r.1, t :: r.2)

/-- Model of `AppState::complete_task`: stamp completion on the first task with the id
and return it, or return nothing (state unchanged) for an unknown id. -/
def AppData.completeTask (s : AppData) (task_id : String) (now : Int) :
    Option Task × AppData :=
  let r := completeTasksGo now task_id s.tasks
  (r.1, { s with tasks := r.2 })

/-- Model of `AppState::remove_task`. -/
def AppData.removeTask (s : AppData) (task_id : String) : AppData :=
  { s with tasks := s.tasks.filter fun t => !(t.id == task_id) }

/-- Model of `AppState::remove_tasks`. -/
def AppData.removeTasks (s : AppData) (task_ids : List String) : AppData :=
  { s with tasks := s.tasks.filter fun t => !(task_ids.contains t.id) }

/-- Model of `AppState::mark_reminder_fired`: stamp `last_fired_at`, bump
`repeat_fired_count` (never below 0, saturating), and clear a consumed
snooze. -/
def AppData.markReminderFired (s : AppData) (task : Task) (fired_at : Int) : AppData :=
  let upd := fun existing =>
    let snoozed' :=
      match existing.reminder.snoozed_until with
      | some snoozed_until => if snoozed_until ≤ fired_at then none else some snoozed_until
      | none => none
    { existing with
      reminder :=
        { existing.reminder with
          last_fired_at := some fired_at
          repeat_fired_count := saturatingAddI64 (max existing.reminder.repeat_fired_count 0) 1
          snoozed_until := snoozed' } }
  { s with tasks := updateFirst (fun t => t.id == task.id) upd s.tasks }

/-- Model of `AppState::update_settings`. -/
def AppData.updateSettings (s : AppData) (settings : Settings) : AppData :=
  { s with settings := settings }

/-- The states reachable through the store's constructor and mutation
operations (`state.rs`). -/
inductive Reachable : AppData → Prop where
  | new (tasks : List Task) (projects : List Project) (settings : Settings) (now : Int) :
      Reachable (AppData.new tasks projects settings now)
  | addTask {s : AppData} (task : Task) : Reachable s → Reachable (s.addTask task)
  | addProject {s : AppData} (project : Project) : Reachable s → Reachable (s.addProject project)
  | replaceTasks {s : AppData} (tasks : List Task) : Reachable s →
      Reachable (s.replaceTasks tasks)
  | replaceProjects {s : AppData} (projects : List Project) (now : Int) : Reachable s →
      Reachable (s.replaceProjects projects now)
  | updateTask {s : AppData} (task : Task) : Reachable s → Reachable (s.updateTask task)
  | updateProject {s : AppData} (project : Project) : Reachable s →
      Reachable (s.updateProject project)
  | removeProject {s : AppData} (project_id : String) : Reachable s →
      Reachable (s.removeProject project_id)
  | swapSortOrder {s : AppData} (first_id second_id : String) (updated_at : Int) :
      Reachable s → Reachable (s.swapSortOrder first_id second_id updated_at).2
  | swapProjectSortOrder {s : AppData} (first_id second_id : String) (updated_at : Int) :
      Reachable s → Reachable (s.swapProjectSortOrder first_id second_id updated_at).2
  | completeTask {s : AppData} (task_id : String) (now : Int) : Reachable s →
      Reachable (s.completeTask task_id now).2
  | removeTask {s : AppData} (task_id : String) : Reachable s → Reachable (s.removeTask task_id)
  | removeTasks {s : AppData} (task_ids : List String) : Reachable s →
      Reachable (s.removeTasks task_ids)
  | markReminderFired {s : AppData} (task : Task) (fired_at : Int) : Reachable s →
      Reachable (s.markReminderFired task fired_at)
  | updateSettings {s : AppData} (settings : Settings) : Reachable s →
      Reachable (s.updateSettings settings)

/-! ## `commands.rs`: auto-backup policy and repeat-task successor -/

/-- Model of `chrono::Local.timestamp_opt(ts, 0).single().map(date_naive)` in the
fixed-offset timezone model (total: the model has no unrepresentable local
dates). -/
def localDate (off ts : Int) : Date := dateFromDayNumber ((ts + off) / secondsPerDay)

/-- Model of `chrono`'s `iso_week()`: the ISO-8601 `(year, week)` of a date, computed
from the Thursday of the date's week. -/
def isoWeekPair (d : Date) : Int × Int :=
  let z := d.dayNumber
  let wd := (z + 3) % 7 + 1
  let thuZ := z + (4 - wd)
  let y := (dateFromDayNumber thuZ).year
  let jan1 := Date.dayNumber ⟨y, 1, 1⟩
  (y, (thuZ - jan1) / 7 + 1)

/-- Model of `commands.rs` `is_new_day`: no previous backup, or a different local
calendar date. -/
def isNewDay (off : Int) (last : Option Int) (now : Int) : Bool :=
  match last with
  | none => true
  | some ts => !(localDate off ts == localDate off now)

/-- Model of `commands.rs` `is_new_week`: no previous backup, or a different ISO week. -/
def isNewWeek (off : Int) (last : Option Int) (now : Int) : Bool :=
  match last with
  | none => true
  | some ts => !(isoWeekPair (localDate off ts) == isoWeekPair (localDate off now))

/-- Model of `commands.rs` `is_new_month`: no previous backup, or a different
`(year, month)` pair. -/
def isNewMonth (off : Int) (last : Option Int) (now : Int) : Bool :=
  match last with
  | none => true
  | some ts =>
    !(((localDate off ts).year, (localDate off ts).month)
      == ((localDate off now).year, (localDate off now).month))

/-- Model of `commands.rs` `should_auto_backup`. -/
def shouldAutoBackup (off : Int) (settings : Settings) (now : Int) : Bool :=
  match settings.backup_schedule with
  | BackupSchedule.none => false
  | BackupSchedule.daily => isNewDay off settings.last_backup_at now
  | BackupSchedule.weekly => isNewWeek off settings.last_backup_at now
  | BackupSchedule.monthly => isNewMonth off settings.last_backup_at now

/-- The `remind_at` assigned by `build_next_repeat_task`.  (In the source both
arms of its `if` assign `next.reminder.remind_at`, whose kind equals the
parent's kind, so the field is fully determined by this function.) -/
def nextRemindAt (completed : Task) (next_due : Int) : Option Int :=
  if completed.reminder.kind == ReminderKind.none then none
  else
    let old_default_target :=
      if completed.reminder.kind == ReminderKind.normal then completed.due_at - 10 * 60
      else completed.due_at
    let old_target := completed.reminder.remind_at.getD old_default_target
    let offset := max (completed.due_at - old_target) 0
    some (next_due - offset)

/-- Model of `commands.rs` `build_next_repeat_task`.  `now` is `Utc::now().timestamp()`
and `nowMillis` is `timestamp_millis()` of the same instant. -/
def buildNextRepeatTask (completed : Task) (next_due : Int) (now nowMillis : Int) : Task :=
  { completed with
    id := completed.id ++ "-" ++ toString now
    completed := false
    completed_at := none
    created_at := now
    updated_at := now
    sort_order := nowMillis
    due_at := next_due
    reminder :=
      { completed.reminder with
        last_fired_at := none
        forced_dismissed := false
        snoozed_until := none
        repeat_fired_count := 0
        remind_at := nextRemindAt completed next_due } }

/-! ## Store invariants -/

/-- A project with id "inbox" exists. -/
def hasInbox (s : AppData) : Prop := ∃ p ∈ s.projects, p.id = inboxProjectId

instance (s : AppData) : Decidable (hasInbox s) := by
  unfold hasInbox; infer_instance

/-- The structural invariant of §3 of the spec: every task references an
existing project and every task/project has a non-zero `sort_order`. -/
def structuralInvariant (s : AppData) : Prop :=
  (∀ t ∈ s.tasks, (∃ p ∈ s.projects, t.project_id = p.id) ∧ t.sort_order ≠ 0) ∧
    ∀ p ∈ s.projects, p.sort_order ≠ 0

instance (s : AppData) : Decidable (structuralInvariant s) := by
  unfold structuralInvariant; infer_instance

/-! Sample data for concrete evaluations. -/

/-- A plain single-shot Normal-reminder task due at 1500. -/
def sampleTask : Task :=
  { id := "t1"
    project_id := "inbox"
    title := "demo"
    due_at := 1500
    important := false
    completed := false
    completed_at := none
    created_at := 1
    updated_at := 1
    sort_order := 1
    quadrant := 1
    notes := none
    steps := []
    tags := []
    sample_tag := none
    reminder :=
      { kind := ReminderKind.normal
        remind_at := none
        snoozed_until := none
        forced_dismissed := false
        last_fired_at := none
        repeat_fired_count := 0 }
    repeatRule := RepeatRule.none }

/-- Copy of `sampleTask` snoozed until 42. -/
def sampleSnoozedTask : Task :=
  { sampleTask with reminder := { sampleTask.reminder with snoozed_until := some 42 } }

/-- A task referencing a project id that does not exist, with zero
`sort_order`. -/
def ghostTask : Task :=
  { sampleTask with id := "g", project_id := "ghost", sort_order := 0 }

/-- A small concrete store holding `sampleTask` (built literally: `decide`
cannot kernel-evaluate `String.trim`, which `AppData.new`'s normalization
would run). -/
def sampleStore : AppData :=
  { tasks := [sampleTask], projects := [newInboxProject 1], settings := Settings.default }

/-- A Normal repeating task that has already fired 3 times. -/
def maxedTask : Task :=
  { sampleTask with
    id := "maxed"
    reminder := { sampleTask.reminder with last_fired_at := some 700, repeat_fired_count := 3 } }

/-- Settings enabling repeats (300 s) with a fire limit of 2. -/
def limitSettings : Settings :=
  { Settings.default with
    reminder_repeat_interval_sec := 300
    reminder_repeat_max_times := 2 }

/-- A completed daily-repeating task with a Normal reminder. -/
def doneRepeatTask : Task :=
  { sampleTask with
    id := "done"
    due_at := 2000
    completed := true
    completed_at := some 60
    repeatRule := RepeatRule.daily false }

/-- An attempt to rename and unpin the inbox project. -/
def unpinnedInbox : Project :=
  { id := inboxProjectId
    name := "unpinned"
    pinned := false
    sort_order := 5
    created_at := 1
    updated_at := 1
    sample_tag := none }

/-! ## Theorems -/

/-! Basic calendar lemmas. -/

theorem monthLen_pos (y : Int) (m : Nat) : 1 ≤ monthLen y m := by
  unfold monthLen
  split
  · split <;> norm_num
  · split <;> norm_num

theorem monthLen_le (y : Int) (m : Nat) : monthLen y m ≤ 31 := by
  unfold monthLen
  split
  · split <;> norm_num
  · split <;> norm_num

theorem daysBeforeMonth_succ (y : Int) (m : Nat) (h : 1 ≤ m) :
    daysBeforeMonth y (m + 1) = daysBeforeMonth y m + monthLen y m := by
  match m, h with
  | (k + 1), _ => rfl

theorem isLeapYear_iff (y : Int) :
    isLeapYear y = true ↔ (y % 4 = 0 ∧ y % 100 ≠ 0) ∨ y % 400 = 0 := by
  simp [isLeapYear]

theorem daysBeforeMonth_twelve (y : Int) :
    daysBeforeMonth y 12 = 334 + (if isLeapYear y then 1 else 0) := by
  by_cases h : isLeapYear y <;>
    simp [show (12 : Nat) = 11 + 1 from rfl, show (11 : Nat) = 10 + 1 from rfl,
      show (10 : Nat) = 9 + 1 from rfl, show (9 : Nat) = 8 + 1 from rfl,
      show (8 : Nat) = 7 + 1 from rfl, show (7 : Nat) = 6 + 1 from rfl,
      show (6 : Nat) = 5 + 1 from rfl, show (5 : Nat) = 4 + 1 from rfl,
      show (4 : Nat) = 3 + 1 from rfl, show (3 : Nat) = 2 + 1 from rfl,
      show (2 : Nat) = 1 + 1 from rfl, daysBeforeMonth, monthLen, h]

theorem daysBeforeYear_succ (y : Int) :
    daysBeforeYear (y + 1) = daysBeforeYear y + 365 + (if isLeapYear y then 1 else 0) := by
  unfold daysBeforeYear leapCount
  by_cases h : isLeapYear y = true
  · have hy := (isLeapYear_iff y).mp h
    rw [if_pos h]
    omega
  · have hy : ¬((y % 4 = 0 ∧ y % 100 ≠ 0) ∨ y % 400 = 0) := fun hc => h ((isLeapYear_iff y).mpr hc)
    rw [if_neg h]
    omega

theorem succDate_valid {d : Date} (h : d.Valid) : (succDate d).Valid := by
  obtain ⟨h1, h2, h3, h4⟩ := h
  unfold succDate
  split
  · refine ⟨?_, ?_, ?_, ?_⟩ <;> dsimp only <;> omega
  · split
    · refine ⟨?_, ?_, ?_, ?_⟩ <;> dsimp only
      · omega
      · omega
      · omega
      · exact monthLen_pos _ _
    · refine ⟨?_, ?_, ?_, ?_⟩ <;> dsimp only
      · norm_num
      · norm_num
      · norm_num
      · simp [monthLen]

theorem dayNumber_succDate {d : Date} (h : d.Valid) :
    (succDate d).dayNumber = d.dayNumber + 1 := by
  obtain ⟨h1, h2, h3, h4⟩ := h
  unfold succDate
  split
  · simp only [Date.dayNumber]; push_cast; ring
  · rename_i hlt
    have hday : d.day = monthLen d.year d.month := by omega
    split
    · rename_i hm
      simp only [Date.dayNumber]
      rw [daysBeforeMonth_succ d.year d.month h1]
      push_cast [hday]; ring
    · rename_i hm
      have hm12 : d.month = 12 := by omega
      have h31 : d.day = 31 := by
        rw [hday, hm12]; simp [monthLen]
      simp only [Date.dayNumber]
      rw [daysBeforeYear_succ d.year, hm12, h31, daysBeforeMonth_twelve]
      have : daysBeforeMonth (d.year + 1) 1 = 0 := rfl
      rw [this]
      split <;> push_cast <;> ring

theorem addDays_valid {d : Date} (h : d.Valid) (n : Nat) : (addDays d n).Valid := by
  induction n with
  | zero => exact h
  | succ k ih =>
    rw [addDays, Function.iterate_succ_apply']
    exact succDate_valid ih

theorem dayNumber_addDays {d : Date} (h : d.Valid) (n : Nat) :
    (addDays d n).dayNumber = d.dayNumber + n := by
  induction n with
  | zero => simp [addDays]
  | succ k ih =>
    have hstep := dayNumber_succDate (addDays_valid h k)
    have hiter : addDays d (k + 1) = succDate (addDays d k) := by
      simp only [addDays, Function.iterate_succ_apply']
    rw [hiter, hstep, ih]
    push_cast
    ring

theorem weekdayOf_ge_one (d : Date) : 1 ≤ weekdayOf d := by
  unfold weekdayOf; omega

theorem weekdayOf_le_seven (d : Date) : weekdayOf d ≤ 7 := by
  unfold weekdayOf
  have : 0 ≤ (d.dayNumber + 3) % 7 ∧ (d.dayNumber + 3) % 7 < 7 := by omega
  omega

/-- On any valid start date, every weekday value in `[1, 7]` is hit within the
next seven days (the weekday cycles with period 7). -/
theorem weekday_hit {d : Date} (hv : d.Valid) (w : Nat) (h1 : 1 ≤ w) (h7 : w ≤ 7) :
    ∃ k : Nat, 1 ≤ k ∧ k ≤ 7 ∧ weekdayOf (addDays d k) = w := by
  set a := d.dayNumber with ha
  have key : ∃ ki : Int, 1 ≤ ki ∧ ki ≤ 7 ∧ (a + ki + 3) % 7 = (w : Int) - 1 := by
    refine ⟨(if ((w : Int) - 4 - a) % 7 = 0 then 7 else ((w : Int) - 4 - a) % 7), ?_, ?_, ?_⟩ <;>
      split <;> omega
  obtain ⟨ki, hk1, hk7, hmod⟩ := key
  refine ⟨ki.toNat, by omega, by omega, ?_⟩
  have hnum : (addDays d ki.toNat).dayNumber = a + ki := by
    rw [dayNumber_addDays hv]; omega
  unfold weekdayOf
  rw [hnum]
  omega

theorem splitScan_found {α : Type} (blocks : List (α × Int)) (r : Int)
    (h0 : 0 ≤ r) (hlt : r < (blocks.map (·.2)).sum) :
    ∃ a r' len, splitScan r blocks = some (a, r') ∧ (a, len) ∈ blocks ∧
      0 ≤ r' ∧ r' < len := by
  induction blocks generalizing r with
  | nil => simp at hlt; omega
  | cons hd tl ih =>
    obtain ⟨a, len⟩ := hd
    by_cases hcase : r < len
    · exact ⟨a, r, len, by simp [splitScan, hcase], by simp, h0, hcase⟩
    · have hsum : (tl.map (·.2)).sum > r - len := by
        simp [List.sum_cons] at hlt
        omega
      obtain ⟨a', r', len', heq, hmem, hr0, hrlen⟩ := ih (r - len) (by omega) hsum
      exact ⟨a', r', len', by simp [splitScan, hcase, heq], by simp [hmem], hr0, hrlen⟩

theorem isLeapYear_add_400 (q i : Int) : isLeapYear (400 * q + i) = isLeapYear i := by
  have h4 : (400 * q + i) % 4 = i % 4 := by omega
  have h100 : (400 * q + i) % 100 = i % 100 := by omega
  have h400 : (400 * q + i) % 400 = i % 400 := by omega
  simp [isLeapYear, h4, h100, h400]

set_option maxRecDepth 8000 in
theorem yearBlocks_sum (q : Int) : ((yearBlocks q).map (·.2)).sum = 146097 := by
  unfold yearBlocks
  rw [List.map_map]
  have hcong : (List.range 400).map ((·.2) ∘ fun i => (400 * q + i, yearLen (400 * q + i)))
      = (List.range 400).map (fun i : Nat => yearLen i) := by
    apply List.map_congr_left
    intro i _
    simp [yearLen, isLeapYear_add_400 q i]
  rw [hcong]
  decide

theorem monthBlocks_sum (y : Int) : ((monthBlocks y).map (·.2)).sum = yearLen y := by
  by_cases h : isLeapYear y <;>
    simp [monthBlocks, yearLen, List.range_succ, monthLen, h]

theorem dateFromDayNumber_valid (z : Int) : (dateFromDayNumber z).Valid := by
  unfold dateFromDayNumber
  have hr0 : 0 ≤ (z + 719528) % 146097 := by omega
  have hrlt : (z + 719528) % 146097 < 146097 := by omega
  obtain ⟨y, doy, ylen, hyscan, hymem, hdoy0, hdoylen⟩ :=
    splitScan_found (yearBlocks ((z + 719528) / 146097)) ((z + 719528) % 146097) hr0
      (by rw [yearBlocks_sum]; exact hrlt)
  have hylen : ylen = yearLen y := by
    simp only [yearBlocks, List.mem_map] at hymem
    obtain ⟨i, _, hi⟩ := hymem
    have h1 : y = 400 * ((z + 719528) / 146097) + i := (congrArg Prod.fst hi).symm
    have h2 : ylen = yearLen (400 * ((z + 719528) / 146097) + i) := (congrArg Prod.snd hi).symm
    rw [h2, ← h1]
  obtain ⟨m, dom, mlen, hmscan, hmmem, hdom0, hdomlen⟩ :=
    splitScan_found (monthBlocks y) doy hdoy0 (by rw [monthBlocks_sum, ← hylen]; exact hdoylen)
  have hm : ∃ i, i < 12 ∧ m = i + 1 ∧ mlen = (monthLen y (i + 1) : Int) := by
    simp only [monthBlocks, List.mem_map, List.mem_range] at hmmem
    obtain ⟨i, hilt, hi⟩ := hmmem
    exact ⟨i, hilt, (congrArg Prod.fst hi).symm, (congrArg Prod.snd hi).symm⟩
  obtain ⟨i, hilt, hmi, hmleni⟩ := hm
  rw [hyscan]
  dsimp only
  rw [hmscan]
  unfold Date.Valid
  dsimp only
  subst hmi
  exact ⟨by omega, by omega, by omega, by omega⟩

theorem firstHit_isSome (p : Nat → Bool) (k fuel : Nat)
    (h : ∃ j, j < fuel ∧ p (k + j) = true) : (firstHit p k fuel).isSome := by
  induction fuel generalizing k with
  | zero => obtain ⟨j, hj, _⟩ := h; omega
  | succ f ih =>
    by_cases hp : p k = true
    · simp [firstHit, hp]
    · obtain ⟨j, hj, hpj⟩ := h
      have hj0 : j ≠ 0 := by
        intro h0; rw [h0] at hpj; simp at hpj; exact hp hpj
      simp only [firstHit, hp, if_false, Bool.false_eq_true]
      exact ih (k + 1) ⟨j - 1, by omega, by
        have : k + 1 + (j - 1) = k + j := by omega
        rw [this]; exact hpj⟩

theorem firstHit_eq_none_of_never (p : Nat → Bool) (h : ∀ k, p k = false) :
    ∀ fuel k, firstHit p k fuel = none := by
  intro fuel
  induction fuel with
  | zero => intro k; rfl
  | succ f ih => intro k; simp [firstHit, h k, ih]

/-! Lemmas about the recurrence calculator. -/

theorem fromYmdOpt_of_valid {y : Int} {m d : Nat} (hv : (⟨y, m, d⟩ : Date).Valid) :
    fromYmdOpt y m d = some ⟨y, m, d⟩ := by
  unfold fromYmdOpt
  rw [if_pos hv]

theorem lastDayOfMonth_eq (y : Int) (m : Nat) (h1 : 1 ≤ m) (h12 : m ≤ 12) :
    lastDayOfMonth y m = monthLen y m := by
  unfold lastDayOfMonth
  by_cases hm : m = 12
  · subst hm
    have hv : (⟨y + 1, 1, 1⟩ : Date).Valid := ⟨by norm_num, by norm_num, by norm_num, by
      simp [monthLen]⟩
    simp [fromYmdOpt_of_valid hv, predDate, monthLen]
  · have hv : (⟨y, m + 1, 1⟩ : Date).Valid := by
      refine ⟨?_, ?_, ?_, ?_⟩ <;> dsimp only
      · omega
      · omega
      · norm_num
      · exact monthLen_pos _ _
    simp only [if_neg hm]
    rw [fromYmdOpt_of_valid hv, Option.getD_some]
    have h2 : (1 : Nat) < m + 1 := by omega
    simp [predDate, h2]

theorem nextMonthDay_eq (date : Date) (day : Nat) (hv : date.Valid) :
    nextMonthDay date day =
      ⟨if date.month + 1 > 12 then date.year + 1 else date.year,
       if date.month + 1 > 12 then 1 else date.month + 1,
       min (max 1 day)
         (monthLen (if date.month + 1 > 12 then date.year + 1 else date.year)
           (if date.month + 1 > 12 then 1 else date.month + 1))⟩ := by
  obtain ⟨hm1, hm12, _, _⟩ := hv
  simp only [nextMonthDay]
  have hmonth1 : 1 ≤ (if date.month + 1 > 12 then 1 else date.month + 1) := by
    split <;> omega
  have hmonth12 : (if date.month + 1 > 12 then 1 else date.month + 1) ≤ 12 := by
    split <;> omega
  rw [lastDayOfMonth_eq _ _ hmonth1 hmonth12]
  have hdv : (⟨if date.month + 1 > 12 then date.year + 1 else date.year,
      if date.month + 1 > 12 then 1 else date.month + 1,
      min (max 1 day)
        (monthLen (if date.month + 1 > 12 then date.year + 1 else date.year)
          (if date.month + 1 > 12 then 1 else date.month + 1))⟩ : Date).Valid := by
    refine ⟨hmonth1, hmonth12, ?_, ?_⟩ <;> dsimp only
    · have := monthLen_pos (if date.month + 1 > 12 then date.year + 1 else date.year)
        (if date.month + 1 > 12 then 1 else date.month + 1)
      omega
    · omega
  rw [fromYmdOpt_of_valid hdv, Option.getD_some]

theorem nextYearDay_eq (date : Date) (month day : Nat) :
    nextYearDay date month day =
      ⟨date.year + 1, min (max month 1) 12,
       min (max 1 day) (monthLen (date.year + 1) (min (max month 1) 12))⟩ := by
  simp only [nextYearDay]
  have hm1 : 1 ≤ min (max month 1) 12 := by omega
  have hm12 : min (max month 1) 12 ≤ 12 := by omega
  rw [lastDayOfMonth_eq _ _ hm1 hm12]
  have hdv : (⟨date.year + 1, min (max month 1) 12,
      min (max 1 day) (monthLen (date.year + 1) (min (max month 1) 12))⟩ : Date).Valid := by
    refine ⟨hm1, hm12, ?_, ?_⟩ <;> dsimp only
    · have := monthLen_pos (date.year + 1) (min (max month 1) 12)
      omega
    · omega
  rw [fromYmdOpt_of_valid hdv, Option.getD_some]

theorem nextWorkday_isSome (date : Date) (hv : date.Valid) (w : Bool) :
    (nextWorkday date w).isSome := by
  cases w with
  | false => rfl
  | true =>
    have hshow : nextWorkday date true =
        Option.map (addDays date)
          (firstHit
            (fun k => !(weekdayOf (addDays date k) == 6 || weekdayOf (addDays date k) == 7))
            1 7) := rfl
    rw [hshow, Option.isSome_map']
    apply firstHit_isSome
    obtain ⟨k, hk1, hk7, hkw⟩ := weekday_hit hv 1 (by norm_num) (by norm_num)
    exact ⟨k - 1, by omega, by
      have : 1 + (k - 1) = k := by omega
      rw [this, hkw]; rfl⟩

theorem nextWeekday_isSome (date : Date) (hv : date.Valid) (days : List Nat)
    (h : days = [] ∨ ∃ d ∈ days, 1 ≤ d ∧ d ≤ 7) : (nextWeekday date days).isSome := by
  rcases h with h | ⟨d, hd, hd1, hd7⟩
  · subst h
    rfl
  · have hne : days.isEmpty = false := by
      cases days with
      | nil => simp at hd
      | cons a l => rfl
    have hshow : nextWeekday date days =
        Option.map (addDays date)
          (firstHit (fun k => days.contains (weekdayOf (addDays date k))) 1 7) := by
      unfold nextWeekday
      rw [if_neg (by simp [hne])]
    rw [hshow, Option.isSome_map']
    apply firstHit_isSome
    obtain ⟨k, hk1, hk7, hkw⟩ := weekday_hit hv d hd1 hd7
    exact ⟨k - 1, by omega, by
      have : 1 + (k - 1) = k := by omega
      rw [this, hkw]
      exact List.elem_eq_true_of_mem hd⟩

/-- When the weekday set is non-empty but contains no value in `[1, 7]`, the
guard of the `next_weekday` loop is false at every offset: the source's loop
never returns, whatever the fuel. -/
theorem nextWeekday_guard_never (date : Date) (days : List Nat)
    (h : ∀ d ∈ days, ¬(1 ≤ d ∧ d ≤ 7)) (k : Nat) :
    days.contains (weekdayOf (addDays date k)) = false := by
  cases hb : days.contains (weekdayOf (addDays date k)) with
  | false => rfl
  | true =>
    have hmem : weekdayOf (addDays date k) ∈ days := List.mem_of_elem_eq_true hb
    exact absurd ⟨weekdayOf_ge_one _, weekdayOf_le_seven _⟩ (h _ hmem)

theorem mem_collectDueTasks {tasks : List Task} {settings : Settings} {now : Int} {t : Task} :
    t ∈ collectDueTasks tasks settings now ↔
      t ∈ tasks ∧ taskDue (max settings.reminder_repeat_interval_sec 0)
        settings.reminder_repeat_max_times now t = true := by
  unfold collectDueTasks
  rw [(List.mergeSort_perm _ dueSortLe).mem_iff, List.mem_filter]

theorem hasInbox_ensureInboxProject (projects : List Project) (now : Int) :
    ∃ p ∈ ensureInboxProject projects now, p.id = inboxProjectId := by
  unfold ensureInboxProject
  by_cases h : projects.any fun p => p.id == inboxProjectId
  · rw [if_pos h]
    obtain ⟨p, hp, hpe⟩ := List.any_eq_true.mp h
    exact ⟨p, hp, by simpa using hpe⟩
  · rw [if_neg h]
    exact ⟨newInboxProject now, by simp, rfl⟩

theorem normalizeProjects_id (p : Project) :
    ∀ q ∈ normalizeProjects [p], q.id = p.id := by
  intro q hq
  unfold normalizeProjects at hq
  simp only [List.map_cons, List.map_nil, List.mem_singleton] at hq
  subst hq
  split <;> rfl

theorem hasInbox_normalizeProjects (projects : List Project)
    (h : ∃ p ∈ projects, p.id = inboxProjectId) :
    ∃ p ∈ normalizeProjects projects, p.id = inboxProjectId := by
  obtain ⟨p, hp, hpid⟩ := h
  refine ⟨if p.sort_order = 0 then { p with sort_order := p.created_at * 1000 } else p,
    List.mem_map_of_mem _ hp, ?_⟩
  split <;> exact hpid

theorem hasInbox_updateFirst (l : List Project) (pid : String) (proj : Project)
    (hproj : proj.id = pid) (h : ∃ p ∈ l, p.id = inboxProjectId) :
    ∃ p ∈ updateFirst (fun p => p.id == pid) (fun _ => proj) l, p.id = inboxProjectId := by
  induction l with
  | nil => simp at h
  | cons x rest ih =>
    obtain ⟨p, hp, hpid⟩ := h
    unfold updateFirst
    by_cases hx : x.id == pid
    · rw [if_pos hx]
      rcases List.mem_cons.mp hp with hpx | hprest
      · subst hpx
        refine ⟨proj, List.mem_cons_self _ _, ?_⟩
        rw [hproj, ← (beq_iff_eq.mp hx), hpid]
      · exact ⟨p, List.mem_cons_of_mem _ hprest, hpid⟩
    · rw [if_neg hx]
      rcases List.mem_cons.mp hp with hpx | hprest
      · subst hpx
        exact ⟨p, List.mem_cons_self _ _, hpid⟩
      · obtain ⟨q, hq, hqid⟩ := ih ⟨p, hprest, hpid⟩
        exact ⟨q, List.mem_cons_of_mem _ hq, hqid⟩

/-- Setting an index to the value it already holds changes nothing. -/
theorem set_getElem_self {α : Type} (l : List α) (i : Nat) (v : α) (h : l[i]? = some v) :
    l.set i v = l := by
  induction l generalizing i with
  | nil => simp at h
  | cons x rest ih =>
    cases i with
    | zero => simp at h; simp [List.set, h]
    | succ k =>
      simp only [List.getElem?_cons_succ] at h
      simp [List.set, ih k h]

theorem applySwapProjects_ids (l : List Project) (i j : Nat) (updated_at : Int) :
    (applySwapProjects l i j updated_at).map (fun p => p.id) = l.map fun p => p.id := by
  unfold applySwapProjects
  split
  · rename_i a b ha hb
    have hia : (l.map fun p => p.id)[i]? = some a.id := by
      rw [List.getElem?_map, ha]; rfl
    by_cases hij : i = j
    · subst hij
      rw [ha] at hb
      injection hb with hab
      subst hab
      rw [List.set_set, List.map_set]
      dsimp only
      rw [set_getElem_self _ _ _ hia]
    · have hjb : (l.map fun p => p.id)[j]? = some b.id := by
        rw [List.getElem?_map, hb]; rfl
      rw [List.map_set, List.map_set]
      dsimp only
      rw [set_getElem_self _ _ _ hia, set_getElem_self _ _ _ hjb]
  · rfl

theorem swapSortOrder_projects (s : AppData) (a b : String) (t : Int) :
    ((s.swapSortOrder a b t).2).projects = s.projects := by
  unfold AppData.swapSortOrder
  split <;> rfl

theorem hasInbox_reachable {s : AppData} (h : Reachable s) : hasInbox s := by
  induction h with
  | new tasks projects settings now =>
    exact hasInbox_normalizeProjects _ (hasInbox_ensureInboxProject projects now)
  | addTask task _ ih => exact ih
  | addProject project _ ih =>
    obtain ⟨p, hp, hpid⟩ := ih
    exact ⟨p, List.mem_append_left _ hp, hpid⟩
  | replaceTasks tasks _ ih => exact ih
  | replaceProjects projects now _ =>
    exact hasInbox_normalizeProjects _ (hasInbox_ensureInboxProject projects now)
  | updateTask task _ ih => exact ih
  | updateProject project _ ih => exact hasInbox_updateFirst _ _ _ rfl ih
  | removeProject project_id _ ih =>
    unfold AppData.removeProject
    by_cases hid : project_id == inboxProjectId
    · rw [if_pos hid]; exact ih
    · rw [if_neg hid]
      obtain ⟨p, hp, hpid⟩ := ih
      refine ⟨p, List.mem_filter.mpr ⟨hp, ?_⟩, hpid⟩
      have hne : p.id ≠ project_id := by
        intro hcontra
        apply hid
        rw [← hcontra, hpid]
        exact beq_self_eq_true _
      simpa using hne
  | swapSortOrder first_id second_id updated_at _ ih =>
    unfold hasInbox
    rw [swapSortOrder_projects]
    exact ih
  | swapProjectSortOrder first_id second_id updated_at hreach ih =>
    rename_i s'
    unfold AppData.swapProjectSortOrder
    split
    · rename_i i j heq
      unfold hasInbox
      dsimp only
      have hids := applySwapProjects_ids s'.projects i j updated_at
      obtain ⟨p, hp, hpid⟩ := ih
      have hmem : inboxProjectId ∈ (applySwapProjects s'.projects i j updated_at).map
          fun p => p.id := by
        rw [hids, ← hpid]
        exact List.mem_map_of_mem _ hp
      obtain ⟨q, hq, hqid⟩ := List.mem_map.mp hmem
      exact ⟨q, hq, hqid⟩
    · exact ih
  | completeTask task_id now _ ih => exact ih
  | removeTask task_id _ ih => exact ih
  | removeTasks task_ids _ ih => exact ih
  | markReminderFired task fired_at _ ih => exact ih
  | updateSettings settings _ ih => exact ih

theorem normalizeTask_project_id (allowed : List String) (t : Task)
    (hin : inboxProjectId ∈ allowed) : (normalizeTask allowed t).project_id ∈ allowed := by
  unfold normalizeTask
  dsimp only
  by_cases hs : t.sort_order = 0
  · rw [if_pos hs]
    split
    · exact hin
    · rename_i hcond
      simp only [Bool.or_eq_true, not_or, Bool.not_eq_true, Bool.not_eq_false] at hcond
      have hc : List.elem t.project_id allowed = true := by simpa using hcond.2
      exact List.elem_iff.mp hc
  · rw [if_neg hs]
    split
    · exact hin
    · rename_i hcond
      simp only [Bool.or_eq_true, not_or, Bool.not_eq_true, Bool.not_eq_false] at hcond
      have hc : List.elem t.project_id allowed = true := by simpa using hcond.2
      exact List.elem_iff.mp hc

theorem normalizeTask_sort (allowed : List String) (t : Task) :
    (normalizeTask allowed t).created_at = t.created_at ∧
      (t.created_at ≠ 0 → (normalizeTask allowed t).sort_order ≠ 0) := by
  simp only [normalizeTask]
  by_cases hs : t.sort_order = 0
  · rw [if_pos hs]
    split <;> exact ⟨rfl, fun hc => by dsimp only; omega⟩
  · rw [if_neg hs]
    split
    · exact ⟨rfl, fun hc => by dsimp only; omega⟩
    · exact ⟨rfl, fun hc => by omega⟩

theorem normalizeTasks_spec (tasks : List Task) (projects : List Project)
    (hin : ∃ p ∈ projects, p.id = inboxProjectId) :
    ∀ t ∈ normalizeTasks tasks projects,
      (∃ p ∈ projects, t.project_id = p.id) ∧ (t.created_at ≠ 0 → t.sort_order ≠ 0) := by
  intro t ht
  unfold normalizeTasks at ht
  obtain ⟨t0, -, ht0⟩ := List.mem_map.mp ht
  subst ht0
  obtain ⟨pin, hpin, hpinid⟩ := hin
  have hinbox : inboxProjectId ∈ projects.map fun p => p.id := by
    rw [← hpinid]
    exact List.mem_map_of_mem _ hpin
  constructor
  · have hmem := normalizeTask_project_id (projects.map fun p => p.id) t0 hinbox
    obtain ⟨p, hp, hpid⟩ := List.mem_map.mp hmem
    exact ⟨p, hp, hpid.symm⟩
  · intro hc
    obtain ⟨hcreated, hsort⟩ := normalizeTask_sort (projects.map fun p => p.id) t0
    exact hsort (by rw [← hcreated]; exact hc)

theorem normalizeProjects_spec (projects : List Project) :
    ∀ p ∈ normalizeProjects projects, p.created_at ≠ 0 → p.sort_order ≠ 0 := by
  intro p hp hc
  unfold normalizeProjects at hp
  obtain ⟨p0, -, hp0⟩ := List.mem_map.mp hp
  subst hp0
  by_cases hps : p0.sort_order = 0
  · rw [if_pos hps] at hc ⊢
    dsimp only at hc ⊢
    omega
  · rw [if_neg hps] at hc ⊢
    exact hps

/-! ## Claim theorems -/

/-- C1 (counterexample): for the rule `Weekly {days := [0]}` — a non-empty day
set containing no weekday number in `[1, 7]` — `next_due_timestamp` does not
return a timestamp: the model yields `none`, and the underlying search fails
for EVERY fuel bound (every candidate weekday lies in `[1, 7]`, so the source
loop's guard is never satisfied and the loop never returns).  `1704103200` is
2024-01-01 10:00:00 UTC. -/
theorem c1_weekly_diverges :
    nextDueTimestamp 0 0 1704103200 (RepeatRule.weekly [0]) = none ∧
      ∀ fuel k, firstHit
        (fun j => [0].contains (weekdayOf (addDays (localDate 0 1704103200) j))) k fuel
          = none := by
  constructor
  · decide
  · intro fuel k
    exact firstHit_eq_none_of_never _
      (fun j => nextWeekday_guard_never (localDate 0 1704103200) [0] (by decide) j) fuel k

/-- C1 (amended): `next_due_timestamp` terminates and returns a timestamp for
every `due_at` and every rule whose Weekly day set is empty or contains at
least one weekday number in `[1, 7]` (all `None`/`Daily`/`Monthly`/`Yearly`
rules are unconditionally total); when `due_at` is unrepresentable it falls
back to computing from `now`. -/
theorem c1_total_on_terminating_rules (off now due_at : Int) (rule : RepeatRule)
    (h : weeklyTerminates rule) :
    (∃ ts : Int, nextDueTimestamp off now due_at rule = some ts) ∧
      (¬representableTs due_at →
        nextDueTimestamp off now due_at rule = nextDueTimestamp off now now rule) := by
  constructor
  · have hvalid := dateFromDayNumber_valid
      (((if representableTs due_at then due_at else now) + off) / secondsPerDay)
    have hsome : (nextDate rule (dateFromDayNumber
        (((if representableTs due_at then due_at else now) + off) / secondsPerDay))).isSome := by
      cases rule with
      | none => rfl
      | daily workday_only => exact nextWorkday_isSome _ hvalid workday_only
      | weekly days => exact nextWeekday_isSome _ hvalid days h
      | monthly day => rfl
      | yearly month day => rfl
    obtain ⟨d, hd⟩ := Option.isSome_iff_exists.mp hsome
    refine ⟨d.dayNumber * secondsPerDay +
      ((if representableTs due_at then due_at else now) + off) % secondsPerDay - off, ?_⟩
    show (nextDate rule (dateFromDayNumber
        (((if representableTs due_at then due_at else now) + off) / secondsPerDay))).map
          (fun d => d.dayNumber * secondsPerDay +
            ((if representableTs due_at then due_at else now) + off) % secondsPerDay - off)
        = _
    rw [hd]
    rfl
  · intro hnr
    unfold nextDueTimestamp
    rw [if_neg hnr, ite_self]

/-- C1 (witness): the amended theorem applied to the terminating rule
`Weekly {days := [3]}` at 2024-01-01 10:00:00 UTC. -/
theorem c1_total_on_terminating_rules_witness :
    weeklyTerminates (RepeatRule.weekly [3]) ∧
      ((∃ ts : Int, nextDueTimestamp 0 0 1704103200 (RepeatRule.weekly [3]) = some ts) ∧
        (¬representableTs 1704103200 →
          nextDueTimestamp 0 0 1704103200 (RepeatRule.weekly [3])
            = nextDueTimestamp 0 0 0 (RepeatRule.weekly [3]))) :=
  ⟨by decide, c1_total_on_terminating_rules 0 0 1704103200 (RepeatRule.weekly [3]) (by decide)⟩

/-- C6 (counterexample): for `Monthly {day := 0}` from 2024-01-15 the produced
day-of-month is 1 (the source clamps the day from below with
`max(1, day)`), not `min(0, days_in_february) = 0` as the claim's formula
demands. -/
theorem c6_day_zero_clamps_to_one :
    (nextMonthDay ⟨2024, 1, 15⟩ 0).day = 1 ∧ min 0 (monthLen 2024 2) = 0 ∧
      (nextMonthDay ⟨2024, 1, 15⟩ 0).day ≠ min 0 (monthLen 2024 2) := by
  decide

/-- C6 (amended): for every valid date, the day-of-month produced by
`next_month_day` equals `min(max(1, day), days_in_resulting_month)` where the
resulting month is the next calendar month (rolling the year from December),
and the day produced by `next_year_day` equals the same clamp against the same
clamped month of the next year.  (For `day ≥ 1` this is exactly
`min(day, days_in_resulting_month)`; the lower clamp differs from the claim
only at `day = 0`.) -/
theorem c6_day_of_month_clamped (date : Date) (hv : date.Valid) (day month : Nat) :
    (nextMonthDay date day).day
        = min (max 1 day)
          (monthLen (if date.month + 1 > 12 then date.year + 1 else date.year)
            (if date.month + 1 > 12 then 1 else date.month + 1)) ∧
      (nextYearDay date month day).day
        = min (max 1 day) (monthLen (date.year + 1) (min (max month 1) 12)) := by
  constructor
  · rw [nextMonthDay_eq date day hv]
  · rw [nextYearDay_eq date month day]

/-- C6 (witness): the amended theorem at the repo's own leap-year scenario
`due = 2024-01-31`, `Monthly {day := 31}` (and `Yearly {month := 13, day := 0}`). -/
theorem c6_day_of_month_clamped_witness :
    (⟨2024, 1, 31⟩ : Date).Valid ∧
      ((nextMonthDay ⟨2024, 1, 31⟩ 31).day
          = min (max 1 31) (monthLen (if (1 : Nat) + 1 > 12 then 2024 + 1 else 2024)
            (if (1 : Nat) + 1 > 12 then 1 else 1 + 1)) ∧
        (nextYearDay ⟨2024, 1, 31⟩ 13 31).day
          = min (max 1 31) (monthLen (2024 + 1) (min (max 13 1) 12))) :=
  ⟨by decide, c6_day_of_month_clamped ⟨2024, 1, 31⟩ (by decide) 31 13⟩

/-- C3: every task returned by `collect_due_tasks` is not completed, has a
reminder kind other than `None`, and is not a dismissed Forced reminder. -/
theorem c3_collect_filters (tasks : List Task) (settings : Settings) (now : Int) (t : Task)
    (ht : t ∈ collectDueTasks tasks settings now) :
    t.completed = false ∧ t.reminder.kind ≠ ReminderKind.none ∧
      ¬(t.reminder.kind = ReminderKind.forced ∧ t.reminder.forced_dismissed = true) := by
  obtain ⟨-, hdue⟩ := mem_collectDueTasks.mp ht
  unfold taskDue at hdue
  split at hdue
  · simp at hdue
  · rename_i hcomp
    split at hdue
    · simp at hdue
    · rename_i hkind
      split at hdue
      · simp at hdue
      · rename_i hforced
        refine ⟨by simpa using hcomp, ?_, ?_⟩
        · intro hk
          exact hkind (by rw [hk]; rfl)
        · rintro ⟨hk, hd⟩
          exact hforced (by rw [hk, hd]; rfl)

/-- C3 (witness): with default settings at `now = 1000`, `sampleTask`
(`due_at = 1500`, Normal, never fired) is returned, and the theorem applies to
it. -/
theorem c3_collect_filters_witness :
    sampleTask ∈ collectDueTasks [sampleTask] Settings.default 1000 ∧
      (sampleTask.completed = false ∧ sampleTask.reminder.kind ≠ ReminderKind.none ∧
        ¬(sampleTask.reminder.kind = ReminderKind.forced ∧
          sampleTask.reminder.forced_dismissed = true)) :=
  ⟨mem_collectDueTasks.mpr ⟨by decide, by decide⟩,
    c3_collect_filters [sampleTask] Settings.default 1000 sampleTask
      (mem_collectDueTasks.mpr ⟨by decide, by decide⟩)⟩

/-- C4: a Normal-reminder task on the repeating path
(`reminder_repeat_interval_sec > 0`) whose `repeat_fired_count` has reached a
positive `reminder_repeat_max_times` is excluded by `collect_due_tasks` for
every `now` and every task list. -/
theorem c4_repeat_limit_excludes (settings : Settings) (now : Int) (t : Task)
    (tasks : List Task)
    (hkind : t.reminder.kind = ReminderKind.normal)
    (hint : 0 < settings.reminder_repeat_interval_sec)
    (hmax : 0 < settings.reminder_repeat_max_times)
    (hcount : settings.reminder_repeat_max_times ≤ t.reminder.repeat_fired_count) :
    t ∉ collectDueTasks tasks settings now := by
  intro hmem
  obtain ⟨-, hdue⟩ := mem_collectDueTasks.mp hmem
  unfold taskDue at hdue
  split at hdue
  · simp at hdue
  · split at hdue
    · simp at hdue
    · split at hdue
      · simp at hdue
      · have h3 : (if (t.reminder.kind == ReminderKind.normal) = true
            then max settings.reminder_repeat_interval_sec 0 else 0)
            = max settings.reminder_repeat_interval_sec 0 := by
          rw [hkind]; rfl
        rw [h3] at hdue
        rw [if_neg (by omega : ¬(max settings.reminder_repeat_interval_sec 0 ≤ 0))] at hdue
        rw [if_pos (⟨hmax, by omega⟩ :
          0 < settings.reminder_repeat_max_times ∧
            settings.reminder_repeat_max_times ≤ max t.reminder.repeat_fired_count 0)] at hdue
        simp at hdue

/-- C4 (witness): the theorem applied to a maxed-out repeating task
(`repeat_fired_count = 3`, `max_times = 2`, `interval = 300`) at a `now` far
past its target. -/
theorem c4_repeat_limit_excludes_witness :
    (maxedTask.reminder.kind = ReminderKind.normal ∧
        0 < limitSettings.reminder_repeat_interval_sec ∧
        0 < limitSettings.reminder_repeat_max_times ∧
        limitSettings.reminder_repeat_max_times ≤ maxedTask.reminder.repeat_fired_count) ∧
      maxedTask ∉ collectDueTasks [maxedTask] limitSettings 999999999 :=
  ⟨⟨by decide, by decide, by decide, by decide⟩,
    c4_repeat_limit_excludes limitSettings 999999999 maxedTask [maxedTask]
      (by decide) (by decide) (by decide) (by decide)⟩

/-- C5: for a non-completed task with a Normal or Forced reminder, the target
computed by `collect_due_tasks` is `snoozed_until` when present, else
`remind_at` when present, else `due_at - 600` for Normal and `due_at` for
Forced. -/
theorem c5_target_priority (t : Task) (hcomp : t.completed = false)
    (hkind : t.reminder.kind = ReminderKind.normal ∨ t.reminder.kind = ReminderKind.forced) :
    (∀ s, t.reminder.snoozed_until = some s → targetTime t.reminder t.due_at = s) ∧
      (t.reminder.snoozed_until = none → ∀ r, t.reminder.remind_at = some r →
        targetTime t.reminder t.due_at = r) ∧
      (t.reminder.snoozed_until = none → t.reminder.remind_at = none →
        targetTime t.reminder t.due_at =
          if t.reminder.kind = ReminderKind.normal then t.due_at - 600 else t.due_at) := by
  refine ⟨?_, ?_, ?_⟩
  · intro s hs
    unfold targetTime
    rw [hs]
    rfl
  · intro hsn r hr
    unfold targetTime
    rw [hsn, hr]
    rfl
  · intro hsn hrn
    unfold targetTime defaultTarget
    rw [hsn, hrn]
    rcases hkind with hk | hk <;> rw [hk] <;> simp

/-- C5 (witness): the theorem applied to `sampleSnoozedTask`
(`snoozed_until = 42`): the active snooze wins. -/
theorem c5_target_priority_witness :
    sampleSnoozedTask.completed = false ∧
      targetTime sampleSnoozedTask.reminder sampleSnoozedTask.due_at = 42 :=
  ⟨rfl, (c5_target_priority sampleSnoozedTask rfl (Or.inl rfl)).1 42 rfl⟩

/-- C2 (counterexample): `add_task` pushes the task unchanged, so adding a
task with an unknown `project_id` ("ghost") and zero `sort_order` to a freshly
constructed store breaks the structural invariant the claim says every
mutation preserves. -/
theorem c2_add_task_breaks_invariant :
    structuralInvariant (AppData.new [] [] Settings.default 1) ∧
      ¬structuralInvariant ((AppData.new [] [] Settings.default 1).addTask ghostTask) := by
  constructor
  · decide
  · decide

/-- C2 (amended): the normalization invariant is (re-)established by the
normalizing operations — construction, `replace_tasks`, `replace_projects`,
and `remove_project` of a non-inbox project: afterwards every task's
`project_id` references an existing project, and every task/project whose
`created_at` is non-zero has a non-zero `sort_order` (a zero `sort_order` is
defaulted to `created_at * 1000`, which is zero again when `created_at = 0`).
`add_task`/`update_task` do not normalize (see the counterexample). -/
theorem c2_normalizing_ops (s : AppData) (tasks : List Task) (projects : List Project)
    (settings : Settings) (now : Int) (project_id : String)
    (hs : hasInbox s) (hpid : project_id ≠ inboxProjectId) :
    (∀ t ∈ (AppData.new tasks projects settings now).tasks,
        (∃ p ∈ (AppData.new tasks projects settings now).projects, t.project_id = p.id) ∧
          (t.created_at ≠ 0 → t.sort_order ≠ 0)) ∧
      (∀ p ∈ (AppData.new tasks projects settings now).projects,
        p.created_at ≠ 0 → p.sort_order ≠ 0) ∧
      (∀ t ∈ (s.replaceTasks tasks).tasks,
        (∃ p ∈ (s.replaceTasks tasks).projects, t.project_id = p.id) ∧
          (t.created_at ≠ 0 → t.sort_order ≠ 0)) ∧
      (∀ t ∈ (s.replaceProjects projects now).tasks,
        (∃ p ∈ (s.replaceProjects projects now).projects, t.project_id = p.id) ∧
          (t.created_at ≠ 0 → t.sort_order ≠ 0)) ∧
      (∀ t ∈ (s.removeProject project_id).tasks,
        (∃ p ∈ (s.removeProject project_id).projects, t.project_id = p.id) ∧
          (t.created_at ≠ 0 → t.sort_order ≠ 0)) := by
  have hnewinbox : ∃ p ∈ normalizeProjects (ensureInboxProject projects now),
      p.id = inboxProjectId :=
    hasInbox_normalizeProjects _ (hasInbox_ensureInboxProject projects now)
  refine ⟨?_, ?_, ?_, ?_, ?_⟩
  · exact normalizeTasks_spec tasks _ hnewinbox
  · exact fun p hp => normalizeProjects_spec _ p hp
  · exact normalizeTasks_spec tasks s.projects hs
  · exact normalizeTasks_spec s.tasks _ hnewinbox
  · unfold AppData.removeProject
    rw [if_neg (by simpa using hpid)]
    refine normalizeTasks_spec s.tasks _ ?_
    obtain ⟨p, hp, hpinbox⟩ := hs
    refine ⟨p, List.mem_filter.mpr ⟨hp, ?_⟩, hpinbox⟩
    have : p.id ≠ project_id := fun hc => hpid (by rw [← hc, hpinbox])
    simpa using this

/-- C2 (witness): the amended theorem applied to a fresh store and the
`ghostTask` list: `replace_tasks` rewrites the ghost reference into "inbox"
and fills the zero `sort_order`. -/
theorem c2_normalizing_ops_witness :
    (hasInbox (AppData.new [] [] Settings.default 1) ∧ "p9" ≠ inboxProjectId) ∧
      ∀ t ∈ ((AppData.new [] [] Settings.default 1).replaceTasks [ghostTask]).tasks,
        (∃ p ∈ ((AppData.new [] [] Settings.default 1).replaceTasks [ghostTask]).projects,
            t.project_id = p.id) ∧ (t.created_at ≠ 0 → t.sort_order ≠ 0) :=
  ⟨⟨by decide, by decide⟩,
    (c2_normalizing_ops (AppData.new [] [] Settings.default 1) [ghostTask] [] Settings.default
      1 "p9" (by decide) (by decide)).2.2.1⟩

/-- C7 (counterexample): the store-level `update_project` replaces the inbox
project wholesale, so a reachable state can hold an unpinned inbox — the
pinned guard lives in the command layer (`update_project_impl`), not in the
store. -/
theorem c7_update_project_unpins_inbox :
    Reachable ((AppData.new [] [] Settings.default 1).updateProject unpinnedInbox) ∧
      ∃ p ∈ ((AppData.new [] [] Settings.default 1).updateProject unpinnedInbox).projects,
        p.id = inboxProjectId ∧ p.pinned = false :=
  ⟨Reachable.updateProject unpinnedInbox (Reachable.new [] [] Settings.default 1), by decide⟩

/-- C7 (amended): in every reachable store state a project with id "inbox"
exists, and `remove_project("inbox")` is a no-op, so no operation deletes it
(it is created pinned when missing; the store's `update_project` and
`replace_projects` can however overwrite its `pinned` flag — see the
counterexample). -/
theorem c7_inbox_persists {s : AppData} (h : Reachable s) :
    (∃ p ∈ s.projects, p.id = inboxProjectId) ∧ s.removeProject inboxProjectId = s := by
  refine ⟨hasInbox_reachable h, ?_⟩
  unfold AppData.removeProject
  rw [if_pos (beq_self_eq_true _)]

/-- C7 (witness): the amended theorem at a freshly constructed store. -/
theorem c7_inbox_persists_witness :
    (∃ p ∈ (AppData.new [] [] Settings.default 1).projects, p.id = inboxProjectId) ∧
      (AppData.new [] [] Settings.default 1).removeProject inboxProjectId
        = AppData.new [] [] Settings.default 1 :=
  c7_inbox_persists (Reachable.new [] [] Settings.default 1)

theorem completeTasksGo_of_find_none (now : Int) (task_id : String) (l : List Task)
    (h : l.find? (fun t => t.id == task_id) = none) :
    completeTasksGo now task_id l = (none, l) := by
  induction l with
  | nil => rfl
  | cons t rest ih =>
    by_cases hp : (t.id == task_id) = true
    · simp [List.find?_cons, hp] at h
    · have hp' : (t.id == task_id) = false := by simpa using hp
      simp only [List.find?_cons, hp'] at h
      simp only [completeTasksGo]
      rw [if_neg hp, ih h]

theorem completeTasksGo_of_find_some (now : Int) (task_id : String) (l : List Task)
    (t0 : Task) (h : l.find? (fun t => t.id == task_id) = some t0) :
    completeTasksGo now task_id l =
      (some (finalizeTask now t0),
        updateFirst (fun t => t.id == task_id) (finalizeTask now) l) := by
  induction l with
  | nil => simp at h
  | cons t rest ih =>
    by_cases hp : (t.id == task_id) = true
    · simp only [List.find?_cons, hp] at h
      injection h with h0
      subst h0
      simp only [completeTasksGo, updateFirst]
      rw [if_pos hp, if_pos hp]
    · have hp' : (t.id == task_id) = false := by simpa using hp
      simp only [List.find?_cons, hp'] at h
      simp only [completeTasksGo, updateFirst]
      rw [if_neg hp, if_neg hp, ih h]

/-- C9: `complete_task` on a known id finalizes the first matching task
(`completed = true`, `completed_at = updated_at = now`, snooze cleared,
`last_fired_at = now`) in place and returns it; on an unknown id it returns
nothing and leaves the store unchanged. -/
theorem c9_complete_task (s : AppData) (task_id : String) (now : Int) :
    (s.tasks.find? (fun t => t.id == task_id) = none →
        s.completeTask task_id now = (none, s)) ∧
      ∀ t0, s.tasks.find? (fun t => t.id == task_id) = some t0 →
        (s.completeTask task_id now).1 = some (finalizeTask now t0) ∧
        (s.completeTask task_id now).2 =
          { s with tasks := updateFirst (fun t => t.id == task_id) (finalizeTask now) s.tasks } ∧
        (finalizeTask now t0).completed = true ∧
        (finalizeTask now t0).completed_at = some now ∧
        (finalizeTask now t0).updated_at = now ∧
        (finalizeTask now t0).reminder.snoozed_until = none ∧
        (finalizeTask now t0).reminder.last_fired_at = some now := by
  constructor
  · intro hnone
    show ((completeTasksGo now task_id s.tasks).1,
      { s with tasks := (completeTasksGo now task_id s.tasks).2 }) = (none, s)
    rw [completeTasksGo_of_find_none now task_id s.tasks hnone]
  · intro t0 hsome
    have hgo := completeTasksGo_of_find_some now task_id s.tasks t0 hsome
    refine ⟨?_, ?_, rfl, rfl, rfl, rfl, rfl⟩
    · show (completeTasksGo now task_id s.tasks).1 = _
      rw [hgo]
    · show { s with tasks := (completeTasksGo now task_id s.tasks).2 } = _
      rw [hgo]

/-- C9 (witness): the theorem applied at a one-task store: completing "t1"
returns the finalized task, and completing an unknown id is a no-op. -/
theorem c9_complete_task_witness :
    sampleStore.tasks.find? (fun t => t.id == "t1") = some sampleTask ∧
      (sampleStore.completeTask "t1" 50).1 = some (finalizeTask 50 sampleTask) ∧
      sampleStore.tasks.find? (fun t => t.id == "missing") = none ∧
      sampleStore.completeTask "missing" 50 = (none, sampleStore) :=
  ⟨by decide,
    ((c9_complete_task sampleStore "t1" 50).2 sampleTask (by decide)).1,
    by decide,
    (c9_complete_task sampleStore "missing" 50).1 (by decide)⟩

/-- C8: `should_auto_backup` returns true iff the schedule is not `None` and
`last_backup_at` is absent or lies in a different calendar period than `now`:
a different local calendar date for Daily, a different ISO `(year, week)` for
Weekly, a different `(year, month)` pair for Monthly — a calendar-boundary
comparison, not an elapsed-duration threshold. -/
theorem c8_backup_calendar_boundary (off : Int) (settings : Settings) (now : Int) :
    shouldAutoBackup off settings now = true ↔
      settings.backup_schedule ≠ BackupSchedule.none ∧
        (settings.last_backup_at = none ∨
          ∃ last, settings.last_backup_at = some last ∧
            ((settings.backup_schedule = BackupSchedule.daily ∧
                localDate off last ≠ localDate off now) ∨
             (settings.backup_schedule = BackupSchedule.weekly ∧
                isoWeekPair (localDate off last) ≠ isoWeekPair (localDate off now)) ∨
             (settings.backup_schedule = BackupSchedule.monthly ∧
                ((localDate off last).year, (localDate off last).month)
                  ≠ ((localDate off now).year, (localDate off now).month)))) := by
  rcases hsched : settings.backup_schedule <;>
    rcases hlast : settings.last_backup_at with _ | last <;>
      simp [shouldAutoBackup, isNewDay, isNewWeek, isNewMonth, hsched, hlast]

/-- C10: the successor built by `build_next_repeat_task` for a completed
repeating task is un-completed, has its reminder run-state
(`completed_at`, `last_fired_at`, `snoozed_until`, `forced_dismissed`,
`repeat_fired_count`) reset, is due at `next_due`, and — when the reminder
kind is not `None` — carries `remind_at = next_due - max(0, due_at - old
target)` where the old target is `remind_at` or the kind-dependent default:
the reminder's offset from the due date is preserved, not the parent's
absolute `remind_at`. -/
theorem c10_build_next_repeat (completed : Task) (next_due now nowMillis : Int)
    (hc : completed.completed = true) (hrule : completed.repeatRule ≠ RepeatRule.none) :
    (buildNextRepeatTask completed next_due now nowMillis).completed = false ∧
      (buildNextRepeatTask completed next_due now nowMillis).completed_at = none ∧
      (buildNextRepeatTask completed next_due now nowMillis).reminder.last_fired_at = none ∧
      (buildNextRepeatTask completed next_due now nowMillis).reminder.snoozed_until = none ∧
      (buildNextRepeatTask completed next_due now nowMillis).reminder.forced_dismissed
        = false ∧
      (buildNextRepeatTask completed next_due now nowMillis).reminder.repeat_fired_count
        = 0 ∧
      (buildNextRepeatTask completed next_due now nowMillis).due_at = next_due ∧
      (completed.reminder.kind ≠ ReminderKind.none →
        (buildNextRepeatTask completed next_due now nowMillis).reminder.remind_at
          = some (next_due -
              max 0 (completed.due_at -
                completed.reminder.remind_at.getD
                  (if completed.reminder.kind = ReminderKind.normal
                   then completed.due_at - 600 else completed.due_at)))) := by
  refine ⟨rfl, rfl, rfl, rfl, rfl, rfl, rfl, fun hne => ?_⟩
  show nextRemindAt completed next_due = _
  unfold nextRemindAt
  have hbeq : (completed.reminder.kind == ReminderKind.none) = false := by
    cases hk : completed.reminder.kind <;> simp_all
  rw [if_neg (by simp [hbeq])]
  have hif : (if (completed.reminder.kind == ReminderKind.normal) = true
      then completed.due_at - 10 * 60 else completed.due_at)
      = (if completed.reminder.kind = ReminderKind.normal
         then completed.due_at - 600 else completed.due_at) := by
    by_cases hnorm : completed.reminder.kind = ReminderKind.normal
    · rw [if_pos hnorm, hnorm]
      norm_num
    · rw [if_neg hnorm, if_neg (by simpa using hnorm)]
  rw [hif, max_comm]

/-- C10 (witness): the theorem applied to the completed `doneRepeatTask`
(Normal reminder, no explicit `remind_at`, daily repeat): the successor's
`remind_at` sits 600 seconds before the new due date. -/
theorem c10_build_next_repeat_witness :
    (doneRepeatTask.completed = true ∧ doneRepeatTask.repeatRule ≠ RepeatRule.none) ∧
      (buildNextRepeatTask doneRepeatTask 5000 70 70000).completed = false ∧
      (buildNextRepeatTask doneRepeatTask 5000 70 70000).reminder.repeat_fired_count = 0 ∧
      (buildNextRepeatTask doneRepeatTask 5000 70 70000).reminder.remind_at
        = some (5000 - max 0 (doneRepeatTask.due_at -
            doneRepeatTask.reminder.remind_at.getD
              (if doneRepeatTask.reminder.kind = ReminderKind.normal
               then doneRepeatTask.due_at - 600 else doneRepeatTask.due_at))) := by
  have h := c10_build_next_repeat doneRepeatTask 5000 70 70000 (by decide) (by decide)
  exact ⟨⟨by decide, by decide⟩, h.1, h.2.2.2.2.2.1, h.2.2.2.2.2.2.2 (by decide)⟩

end FkTodo

